import Mathlib

/-!
Shallow embedding of the BadRingBuffer crate (src/lib.rs): a fixed
capacity ring buffer with head/tail/count bookkeeping, push with
eviction, destructive iteration (pop via Iterator::next), clear,
drain, and the byte stream Read/Write adapters.  Machine integers
(usize) are modelled as Nat; the raw storage block is a Lean list of
length capacity whose slots hold junk (the Inhabited default) until
first written; a Rust panic is modelled as the Option value none.
-/

/-- Addition and multiplication on usize wrap at this bound (64 bit target). -/
def usizeBound : Nat := 2 ^ 64

/-- Largest size accepted by Layout computations (the value of isize MAX). -/
def isizeMax : Nat := 2 ^ 63 - 1

/-- The struct BadRingBuffer of src/lib.rs.  The raw pointer start_ptr
together with the allocated block is modelled by the list storage,
one entry per slot; slots never written still hold the junk default. -/
structure BadRingBuffer (α : Type) where
  head : Nat
  tail : Nat
  storage : List α
  capacity : Nat
  count : Nat
  deriving DecidableEq, Repr

namespace BadRingBuffer

set_option linter.unusedSectionVars false

variable {α : Type} [Inhabited α]

/-- Test whether a number is a power of two, as usize::is_power_of_two. -/
def isPow2 (n : Nat) : Bool := n != 0 && (n &&& (n - 1)) == 0

/-- Layout::from_size_align succeeds iff align is a power of two and
size stays within isize MAX after rounding up to the alignment. -/
def layout_from_size_align (size align : Nat) : Bool :=
  isPow2 align && decide (size ≤ isizeMax - (align - 1))

/-- The buffer value literally built at the end of with_capacity:
zeroed indices and count, and a capacity sized storage block whose
slots are junk (uninitialized memory fresh from the allocator). -/
def init (capacity : Nat) : BadRingBuffer α :=
  { head := 0, tail := 0, storage := List.replicate capacity default,
    capacity := capacity, count := 0 }

/-- BadRingBuffer::with_capacity for an element type of size sizeT and
alignment alignT.  The layout size is capacity times the element size,
wrapping as usize multiplication does in release builds; the expect on
the layout result is the only panic (modelled as none).  Zero capacity
is not rejected, and the pointer returned by alloc is used without a
null check, so allocation failure has no observable branch here. -/
def with_capacity (sizeT alignT capacity : Nat) : Option (BadRingBuffer α) :=
  if layout_from_size_align ((capacity * sizeT) % usizeBound) alignT then
    some (init capacity)
  else none

/-- BadRingBuffer::empty. -/
def empty (b : BadRingBuffer α) : Bool := b.count == 0

/-- BadRingBuffer::full. -/
def full (b : BadRingBuffer α) : Bool := b.count == b.capacity

/-- BadRingBuffer::push.  Writes value at head, bumps count while it
is below capacity, wraps head, and advances tail only under the
comparison head greater than tail that the source uses (together with
count equal to capacity, both read after their updates).  With
capacity zero the index update (head + 1) % capacity divides by zero,
a panic: none. -/
def push (b : BadRingBuffer α) (value : α) : Option (BadRingBuffer α) :=
  if b.capacity = 0 then none
  else
    let storage1 := b.storage.set b.head value
    let count1 := if b.count < b.capacity then b.count + 1 else b.count
    let head1 := (b.head + 1) % b.capacity
    let tail1 := if b.tail < head1 ∧ count1 = b.capacity then b.tail + 1 else b.tail
    some { head := head1, tail := tail1, storage := storage1,
           capacity := b.capacity, count := count1 }

/-- BadRingBuffer::clear: resets count, head and tail to zero. -/
def clear (b : BadRingBuffer α) : BadRingBuffer α :=
  { b with count := 0, head := 0, tail := 0 }

/-- Iterator::next.  On an empty buffer it yields none with the state
untouched.  Otherwise it reads the slot at tail, wraps tail, and
decrements count.  The tail wrap divides by zero when capacity is
zero, a panic (unreachable from a constructed buffer, where capacity
zero forces count zero forever). -/
def next (b : BadRingBuffer α) : Option (Option α × BadRingBuffer α) :=
  if empty b then some (none, b)
  else if b.capacity = 0 then none
  else some (some (b.storage.getD b.tail default),
    { b with tail := (b.tail + 1) % b.capacity, count := b.count - 1 })

/-- One call to next per unit of fuel: the collect loop inside drain
runs next until it yields none.  Fuel count + 1 always suffices,
because next decrements count on every yield; exhausted fuel is
reported as none and proved unreachable in the lemmas below. -/
def iterGo : Nat → BadRingBuffer α → Option (List α × BadRingBuffer α)
  | 0, _ => none
  | fuel + 1, b =>
    match next b with
    | none => none
    | some (none, b1) => some ([], b1)
    | some (some v, b1) =>
      match iterGo fuel b1 with
      | none => none
      | some (vs, b2) => some (v :: vs, b2)

/-- The sequence produced by calling next repeatedly until it yields
none (the collect step of drain, and also what sequential popping
returns), together with the state left behind. -/
def iterAll (b : BadRingBuffer α) : Option (List α × BadRingBuffer α) :=
  iterGo (b.count + 1) b

/-- BadRingBuffer::drain: collects the iterator into a vector, then
clears the buffer, returning the collected values. -/
def drain (b : BadRingBuffer α) : Option (List α × BadRingBuffer α) :=
  match iterAll b with
  | none => none
  | some (vs, b1) => some (vs, clear b1)

/-- The while loop of Read::read, one next call per unit of fuel.  At
each yielded value the source stores into buf at index before testing
index against the buffer length, so the store itself is in bounds only
when index is below bufLen; otherwise it is an out of bounds slice
index, a panic (none).  Returns the final index together with the
values stored into buf in order and the buffer state. -/
def readGo : Nat → Nat → Nat → BadRingBuffer α → Option (Nat × List α × BadRingBuffer α)
  | 0, _, _, _ => none
  | fuel + 1, bufLen, index, b =>
    match next b with
    | none => none
    | some (none, b1) => some (index, [], b1)
    | some (some v, b1) =>
      if index < bufLen then
        if index + 1 = bufLen then some (index + 1, [v], b1)
        else
          match readGo fuel bufLen (index + 1) b1 with
          | none => none
          | some (n, vs, b2) => some (n, v :: vs, b2)
      else none

/-- Read::read for BadRingBuffer of u8 (elements kept generic here):
given the length of the caller supplied region, returns Ok of the
number of elements transferred, the transferred values oldest first,
and the buffer state; none is a panic. -/
def read (b : BadRingBuffer α) (bufLen : Nat) : Option (Nat × List α × BadRingBuffer α) :=
  readGo (b.count + 1) bufLen 0 b

/-- Pushing a list of values left to right, as the for_each of
Write::write and as the sequential pushes of the tests. -/
def pushList (b : BadRingBuffer α) (vs : List α) : Option (BadRingBuffer α) :=
  match vs with
  | [] => some b
  | v :: rest =>
    match push b v with
    | none => none
    | some b1 => pushList b1 rest

/-- Write::write: pushes every element of the caller region in order
and returns the full input length. -/
def write (b : BadRingBuffer α) (buf : List α) : Option (Nat × BadRingBuffer α) :=
  match pushList b buf with
  | none => none
  | some b1 => some (buf.length, b1)

/-- The four core mutating operations of the buffer API. -/
inductive CoreOp (α : Type) where
  | push (v : α)
  | pop
  | clear
  | drain

/-- Run one core operation, dropping any yielded values. -/
def runCoreStep (b : BadRingBuffer α) : CoreOp α → Option (BadRingBuffer α)
  | .push v => push b v
  | .pop =>
    match next b with
    | none => none
    | some (_, b1) => some b1
  | .clear => some (clear b)
  | .drain =>
    match drain b with
    | none => none
    | some (_, b1) => some b1

/-- Run a sequence of core operations left to right. -/
def runCore (b : BadRingBuffer α) : List (CoreOp α) → Option (BadRingBuffer α)
  | [] => some b
  | op :: ops =>
    match runCoreStep b op with
    | none => none
    | some b1 => runCore b1 ops

/-- Abstract live element count for a capacity cap: the independent
model against which the count bookkeeping is checked.  A push saturates
at cap, a pop on an empty model stays at zero, clear and drain empty
the model. -/
def absStep (cap n : Nat) : CoreOp α → Nat
  | .push _ => min (n + 1) cap
  | .pop => n - 1
  | .clear => 0
  | .drain => 0

/-- Abstract live element count of a whole operation sequence. -/
def absCount (cap : Nat) (ops : List (CoreOp α)) : Nat :=
  ops.foldl (absStep cap) 0

/-- Every operation of the public API, the byte stream adapters
included: readInto n reads into a caller region of length n, writeFrom
pushes a caller supplied sequence. -/
inductive Op (α : Type) where
  | push (v : α)
  | pop
  | clear
  | drain
  | readInto (bufLen : Nat)
  | writeFrom (vs : List α)

/-- Run one operation of the full API, dropping yielded values. -/
def runStep (b : BadRingBuffer α) : Op α → Option (BadRingBuffer α)
  | .push v => push b v
  | .pop =>
    match next b with
    | none => none
    | some (_, b1) => some b1
  | .clear => some (clear b)
  | .drain =>
    match drain b with
    | none => none
    | some (_, b1) => some b1
  | .readInto n =>
    match read b n with
    | none => none
    | some (_, _, b1) => some b1
  | .writeFrom vs =>
    match write b vs with
    | none => none
    | some (_, b1) => some b1

/-- Run a sequence of full API operations left to right. -/
def run (b : BadRingBuffer α) : List (Op α) → Option (BadRingBuffer α)
  | [] => some b
  | op :: ops =>
    match runStep b op with
    | none => none
    | some b1 => run b1 ops

/-- Wellformedness of a buffer state: both indices strictly below
capacity, count bounded by capacity, and a storage block of exactly
capacity slots. -/
def Inv (b : BadRingBuffer α) : Prop :=
  b.head < b.capacity ∧ b.tail < b.capacity ∧
    b.count ≤ b.capacity ∧ b.storage.length = b.capacity

theorem next_of_empty {b : BadRingBuffer α} (h : b.count = 0) :
    next b = some (none, b) := by
  simp [next, empty, h]

theorem next_of_yield {b : BadRingBuffer α} (h : b.count ≠ 0) (hc : b.capacity ≠ 0) :
    next b = some (some (b.storage.getD b.tail default),
      { b with tail := (b.tail + 1) % b.capacity, count := b.count - 1 }) := by
  simp [next, empty, h, hc]

theorem push_of_pos {b : BadRingBuffer α} {v : α} (hc : b.capacity ≠ 0) :
    push b v = some
      { head := (b.head + 1) % b.capacity,
        tail := if b.tail < (b.head + 1) % b.capacity ∧
                  (if b.count < b.capacity then b.count + 1 else b.count) = b.capacity
                then b.tail + 1 else b.tail,
        storage := b.storage.set b.head v,
        capacity := b.capacity,
        count := if b.count < b.capacity then b.count + 1 else b.count } := by
  simp [push, hc]

theorem push_inv {b b1 : BadRingBuffer α} {v : α}
    (hb : Inv b) (h : push b v = some b1) : Inv b1 ∧ b1.capacity = b.capacity := by
  obtain ⟨h1, h2, h3, h4⟩ := hb
  have hc : b.capacity ≠ 0 := by omega
  rw [push_of_pos hc] at h
  injection h with h
  subst h
  have hhead : (b.head + 1) % b.capacity < b.capacity := Nat.mod_lt _ (by omega)
  refine ⟨⟨hhead, ?_, ?_, ?_⟩, rfl⟩
  · show (if b.tail < (b.head + 1) % b.capacity ∧
        (if b.count < b.capacity then b.count + 1 else b.count) = b.capacity
      then b.tail + 1 else b.tail) < b.capacity
    by_cases hcond : b.tail < (b.head + 1) % b.capacity ∧
        (if b.count < b.capacity then b.count + 1 else b.count) = b.capacity
    · rw [if_pos hcond]
      omega
    · rw [if_neg hcond]
      exact h2
  · show (if b.count < b.capacity then b.count + 1 else b.count) ≤ b.capacity
    split <;> omega
  · show (b.storage.set b.head v).length = b.capacity
    simpa using h4

theorem next_inv {b b1 : BadRingBuffer α} {o : Option α}
    (hb : Inv b) (h : next b = some (o, b1)) : Inv b1 ∧ b1.capacity = b.capacity := by
  obtain ⟨h1, h2, h3, h4⟩ := hb
  by_cases h0 : b.count = 0
  · rw [next_of_empty h0] at h
    obtain ⟨rfl, rfl⟩ : o = none ∧ b = b1 := by
      simpa [Prod.ext_iff, eq_comm] using h
    exact ⟨⟨h1, h2, h3, h4⟩, rfl⟩
  · rw [next_of_yield h0 (by omega)] at h
    obtain ⟨rfl, rfl⟩ :
        o = some (b.storage.getD b.tail default) ∧
          { b with tail := (b.tail + 1) % b.capacity, count := b.count - 1 } = b1 := by
      simpa [Prod.ext_iff, eq_comm] using h
    exact ⟨⟨h1, Nat.mod_lt _ (by omega),
      show b.count - 1 ≤ b.capacity by omega, h4⟩, rfl⟩

theorem clear_inv {b : BadRingBuffer α} (hb : Inv b) : Inv (clear b) := by
  obtain ⟨h1, h2, h3, h4⟩ := hb
  exact ⟨by simpa [clear] using Nat.lt_of_le_of_lt (Nat.zero_le _) h1,
    by simpa [clear] using Nat.lt_of_le_of_lt (Nat.zero_le _) h1,
    by simp [clear], by simpa [clear] using h4⟩

theorem iterGo_inv : ∀ (fuel : Nat) (b : BadRingBuffer α) (vs : List α)
    (b2 : BadRingBuffer α), Inv b → iterGo fuel b = some (vs, b2) →
    Inv b2 ∧ b2.capacity = b.capacity := by
  intro fuel
  induction fuel with
  | zero => intro b vs b2 _ h; simp [iterGo] at h
  | succ fuel ih =>
    intro b vs b2 hb h
    rw [iterGo] at h
    cases hn : next b with
    | none => rw [hn] at h; simp at h
    | some p =>
      obtain ⟨o, b1⟩ := p
      rw [hn] at h
      cases o with
      | none =>
        have h2 : (some ([], b1) : Option (List α × BadRingBuffer α)) = some (vs, b2) := h
        obtain ⟨rfl, rfl⟩ : [] = vs ∧ b1 = b2 := by
          simpa [Prod.ext_iff] using h2
        exact next_inv hb hn
      | some v =>
        have h2 : (match iterGo fuel b1 with
            | none => none
            | some (ws, c2) => some (v :: ws, c2)) = some (vs, b2) := h
        cases hr : iterGo fuel b1 with
        | none => rw [hr] at h2; simp at h2
        | some q =>
          obtain ⟨vs1, b2'⟩ := q
          rw [hr] at h2
          obtain ⟨rfl, rfl⟩ : v :: vs1 = vs ∧ b2' = b2 := by
            simpa [Prod.ext_iff] using h2
          obtain ⟨hb1, hcap1⟩ := next_inv hb hn
          obtain ⟨hb2, hcap2⟩ := ih _ _ _ hb1 hr
          exact ⟨hb2, hcap2.trans hcap1⟩

theorem drain_inv {b b1 : BadRingBuffer α} {vs : List α}
    (hb : Inv b) (h : drain b = some (vs, b1)) : Inv b1 ∧ b1.capacity = b.capacity := by
  rw [drain] at h
  cases hi : iterAll b with
  | none => rw [hi] at h; simp at h
  | some p =>
    obtain ⟨vs1, bmid⟩ := p
    rw [hi] at h
    obtain ⟨rfl, rfl⟩ : vs1 = vs ∧ clear bmid = b1 := by
      simpa [Prod.ext_iff] using h
    obtain ⟨hm, hc⟩ := iterGo_inv _ b vs1 bmid hb hi
    exact ⟨clear_inv hm, by simpa [clear] using hc⟩

theorem readGo_inv : ∀ (fuel bufLen index : Nat) (b : BadRingBuffer α)
    (n : Nat) (vs : List α) (b2 : BadRingBuffer α), Inv b →
    readGo fuel bufLen index b = some (n, vs, b2) →
    Inv b2 ∧ b2.capacity = b.capacity := by
  intro fuel
  induction fuel with
  | zero => intro _ _ b n vs b2 _ h; simp [readGo] at h
  | succ fuel ih =>
    intro bufLen index b n vs b2 hb h
    rw [readGo] at h
    cases hn : next b with
    | none => rw [hn] at h; simp at h
    | some p =>
      obtain ⟨o, b1⟩ := p
      rw [hn] at h
      cases o with
      | none =>
        have h2 : (some (index, [], b1) :
            Option (Nat × List α × BadRingBuffer α)) = some (n, vs, b2) := h
        obtain ⟨rfl, rfl, rfl⟩ : index = n ∧ [] = vs ∧ b1 = b2 := by
          simpa [Prod.ext_iff] using h2
        exact next_inv hb hn
      | some v =>
        have h2 : (if index < bufLen then
            if index + 1 = bufLen then some (index + 1, [v], b1)
            else
              match readGo fuel bufLen (index + 1) b1 with
              | none => none
              | some (m, ws, c2) => some (m, v :: ws, c2)
          else none) = some (n, vs, b2) := h
        by_cases hlt : index < bufLen
        · rw [if_pos hlt] at h2
          by_cases heq : index + 1 = bufLen
          · rw [if_pos heq] at h2
            obtain ⟨rfl, rfl, rfl⟩ : index + 1 = n ∧ [v] = vs ∧ b1 = b2 := by
              simpa [Prod.ext_iff] using h2
            exact next_inv hb hn
          · rw [if_neg heq] at h2
            cases hr : readGo fuel bufLen (index + 1) b1 with
            | none => rw [hr] at h2; simp at h2
            | some q =>
              obtain ⟨n1, vs1, b2'⟩ := q
              rw [hr] at h2
              obtain ⟨rfl, rfl, rfl⟩ : n1 = n ∧ v :: vs1 = vs ∧ b2' = b2 := by
                simpa [Prod.ext_iff] using h2
              obtain ⟨hb1, hcap1⟩ := next_inv hb hn
              obtain ⟨hb2, hcap2⟩ := ih _ _ _ _ _ _ hb1 hr
              exact ⟨hb2, hcap2.trans hcap1⟩
        · rw [if_neg hlt] at h2
          simp at h2

theorem pushList_inv : ∀ (vs : List α) (b b1 : BadRingBuffer α), Inv b →
    pushList b vs = some b1 → Inv b1 ∧ b1.capacity = b.capacity := by
  intro vs
  induction vs with
  | nil =>
    intro b b1 hb h
    obtain rfl : b = b1 := by simpa [pushList] using h
    exact ⟨hb, rfl⟩
  | cons v rest ih =>
    intro b b1 hb h
    rw [pushList] at h
    cases hp : push b v with
    | none => rw [hp] at h; simp at h
    | some bmid =>
      rw [hp] at h
      obtain ⟨hm, hcap1⟩ := push_inv hb hp
      obtain ⟨hb1, hcap2⟩ := ih bmid b1 hm h
      exact ⟨hb1, hcap2.trans hcap1⟩

theorem iterGo_total : ∀ (fuel : Nat) (b : BadRingBuffer α), b.capacity ≠ 0 →
    b.count < fuel → ∃ vs b1, iterGo fuel b = some (vs, b1) ∧ b1.count = 0 ∧
      b1.capacity = b.capacity ∧ b1.storage = b.storage ∧ b1.head = b.head ∧
      vs.length = b.count := by
  intro fuel
  induction fuel with
  | zero => intro b _ h; omega
  | succ fuel ih =>
    intro b hc hf
    by_cases h0 : b.count = 0
    · refine ⟨[], b, ?_, h0, rfl, rfl, rfl, by simp [h0]⟩
      rw [iterGo, next_of_empty h0]
    · obtain ⟨vs, b1, hrec, hcnt, hcap, hst, hhd, hlen⟩ :=
        ih { b with tail := (b.tail + 1) % b.capacity, count := b.count - 1 } hc
          (show b.count - 1 < fuel by omega)
      have hlen2 : vs.length = b.count - 1 := hlen
      refine ⟨b.storage.getD b.tail default :: vs, b1, ?_, hcnt,
        hcap.trans rfl, hst.trans rfl, hhd.trans rfl,
        by simp only [List.length_cons, hlen2]; omega⟩
      rw [iterGo, next_of_yield h0 hc]
      show (match iterGo fuel
          { b with tail := (b.tail + 1) % b.capacity, count := b.count - 1 } with
        | none => none
        | some (ws, c2) => some (b.storage.getD b.tail default :: ws, c2)) = _
      rw [hrec]

theorem runCoreStep_spec {b : BadRingBuffer α} (hb : Inv b) (op : CoreOp α) :
    ∃ b1, runCoreStep b op = some b1 ∧ Inv b1 ∧ b1.capacity = b.capacity ∧
      b1.count = absStep b.capacity b.count op := by
  have hc : b.capacity ≠ 0 := by obtain ⟨h1, _⟩ := hb; omega
  cases op with
  | push v =>
    refine ⟨_, push_of_pos hc, (push_inv hb (push_of_pos hc)).1,
      (push_inv hb (push_of_pos hc)).2, ?_⟩
    show (if b.count < b.capacity then b.count + 1 else b.count)
      = min (b.count + 1) b.capacity
    obtain ⟨_, _, h3, _⟩ := hb
    split <;> omega
  | pop =>
    by_cases h0 : b.count = 0
    · refine ⟨b, ?_, hb, rfl, ?_⟩
      · show (match next b with
          | none => none
          | some (_, b1) => some b1) = some b
        rw [next_of_empty h0]
      · show b.count = b.count - 1
        omega
    · refine ⟨_, ?_, (next_inv hb (next_of_yield h0 hc)).1,
        (next_inv hb (next_of_yield h0 hc)).2, ?_⟩
      · show (match next b with
          | none => none
          | some (_, b1) => some b1) = _
        rw [next_of_yield h0 hc]
      · show b.count - 1 = b.count - 1
        rfl
  | clear => exact ⟨clear b, rfl, clear_inv hb, rfl, rfl⟩
  | drain =>
    obtain ⟨vs, b1, hrec, hcnt, hcap, _, _, _⟩ := iterGo_total (b.count + 1) b hc (by omega)
    refine ⟨clear b1, ?_, clear_inv (iterGo_inv _ _ _ _ hb hrec).1, ?_, rfl⟩
    · show (match drain b with
        | none => none
        | some (_, b1) => some b1) = some (clear b1)
      rw [drain, iterAll, hrec]
    · show b1.capacity = b.capacity
      exact hcap

theorem runCore_spec : ∀ (ops : List (CoreOp α)) (b : BadRingBuffer α), Inv b →
    ∃ b1, runCore b ops = some b1 ∧ Inv b1 ∧ b1.capacity = b.capacity ∧
      b1.count = ops.foldl (absStep b.capacity) b.count := by
  intro ops
  induction ops with
  | nil => intro b hb; exact ⟨b, rfl, hb, rfl, rfl⟩
  | cons op ops ih =>
    intro b hb
    obtain ⟨bmid, hstep, hmid, hcap, hcnt⟩ := runCoreStep_spec hb op
    obtain ⟨b1, hrun, hb1, hcap1, hcnt1⟩ := ih bmid hmid
    refine ⟨b1, ?_, hb1, hcap1.trans hcap, ?_⟩
    · rw [runCore, hstep]
      exact hrun
    · rw [List.foldl_cons, hcnt1, hcap, hcnt]

theorem runStep_inv {b b1 : BadRingBuffer α} {op : Op α}
    (hb : Inv b) (h : runStep b op = some b1) : Inv b1 ∧ b1.capacity = b.capacity := by
  cases op with
  | push v => exact push_inv hb h
  | pop =>
    simp only [runStep] at h
    cases hn : next b with
    | none => rw [hn] at h; simp at h
    | some p =>
      obtain ⟨o, bmid⟩ := p
      rw [hn] at h
      have h2 : (some bmid : Option (BadRingBuffer α)) = some b1 := h
      obtain rfl : bmid = b1 := by simpa using h2
      exact next_inv hb hn
  | clear =>
    simp only [runStep] at h
    obtain rfl : clear b = b1 := by simpa using h
    exact ⟨clear_inv hb, rfl⟩
  | drain =>
    simp only [runStep] at h
    cases hd : drain b with
    | none => rw [hd] at h; simp at h
    | some p =>
      obtain ⟨vs, bmid⟩ := p
      rw [hd] at h
      have h2 : (some bmid : Option (BadRingBuffer α)) = some b1 := h
      obtain rfl : bmid = b1 := by simpa using h2
      exact drain_inv hb hd
  | readInto n =>
    simp only [runStep] at h
    cases hr : read b n with
    | none => rw [hr] at h; simp at h
    | some p =>
      obtain ⟨m, ws, bmid⟩ := p
      rw [hr] at h
      have h2 : (some bmid : Option (BadRingBuffer α)) = some b1 := h
      obtain rfl : bmid = b1 := by simpa using h2
      exact readGo_inv (b.count + 1) n 0 b m ws bmid hb hr
  | writeFrom vs =>
    simp only [runStep] at h
    cases hw : pushList b vs with
    | none => rw [write, hw] at h; simp at h
    | some bmid =>
      rw [write, hw] at h
      have h2 : (some bmid : Option (BadRingBuffer α)) = some b1 := h
      obtain rfl : bmid = b1 := by simpa using h2
      exact pushList_inv vs b bmid hb hw

theorem run_inv : ∀ (ops : List (Op α)) (b b1 : BadRingBuffer α), Inv b →
    run b ops = some b1 → Inv b1 ∧ b1.capacity = b.capacity := by
  intro ops
  induction ops with
  | nil =>
    intro b b1 hb h
    obtain rfl : b = b1 := by simpa [run] using h
    exact ⟨hb, rfl⟩
  | cons op ops ih =>
    intro b b1 hb h
    rw [run] at h
    cases hs : runStep b op with
    | none => rw [hs] at h; simp at h
    | some bmid =>
      rw [hs] at h
      have h2 : run bmid ops = some b1 := h
      obtain ⟨hm, hcapm⟩ := runStep_inv hb hs
      obtain ⟨h1, hcap1⟩ := ih bmid b1 hm h2
      exact ⟨h1, hcap1.trans hcapm⟩

theorem with_capacity_some {c : Nat} {b0 : BadRingBuffer α}
    (h : with_capacity 1 1 c = some b0) : b0 = init c := by
  by_cases hl : layout_from_size_align ((c * 1) % usizeBound) 1 = true
  · rw [with_capacity, if_pos hl] at h
    exact (Option.some.inj h).symm
  · rw [with_capacity, if_neg hl] at h
    simp at h

theorem init_inv {c : Nat} (hc : 1 ≤ c) : Inv (init (α := α) c) :=
  ⟨hc, hc, Nat.zero_le _, by simp [init]⟩

theorem push_fill_step {ws : List α} {c : Nat} (v : α) (hk : ws.length < c) :
    push
      { head := ws.length % c, tail := 0,
        storage := ws ++ List.replicate (c - ws.length) default,
        capacity := c, count := ws.length } v
      = some
        { head := (ws.length + 1) % c, tail := 0,
          storage := (ws ++ [v]) ++ List.replicate (c - (ws.length + 1)) default,
          capacity := c, count := ws.length + 1 } := by
  rw [push_of_pos (show c ≠ 0 by omega)]
  have hlen : (ws ++ List.replicate (c - ws.length) (default : α)).length = c := by
    simp
    omega
  congr 1
  simp only [BadRingBuffer.mk.injEq]
  refine ⟨?_, ?_, ?_, trivial, ?_⟩
  · rw [Nat.mod_eq_of_lt hk]
  · rw [Nat.mod_eq_of_lt hk, if_pos hk]
    by_cases he : ws.length + 1 = c
    · rw [if_neg]
      rintro ⟨habs, -⟩
      rw [he, Nat.mod_self] at habs
      omega
    · rw [if_neg]
      rintro ⟨-, habs⟩
      exact he habs
  · rw [Nat.mod_eq_of_lt hk, List.set_append, if_neg (by omega), Nat.sub_self]
    have h1 : c - ws.length = (c - (ws.length + 1)) + 1 := by omega
    rw [h1, List.replicate_succ, List.set_cons_zero, List.append_assoc,
      List.singleton_append]
  · rw [if_pos hk]

theorem pushList_fill : ∀ (vs ws : List α) (c : Nat), 1 ≤ c →
    ws.length + vs.length ≤ c →
    pushList
      { head := ws.length % c, tail := 0,
        storage := ws ++ List.replicate (c - ws.length) default,
        capacity := c, count := ws.length } vs
      = some
        { head := (ws.length + vs.length) % c, tail := 0,
          storage := (ws ++ vs) ++ List.replicate (c - (ws.length + vs.length)) default,
          capacity := c, count := ws.length + vs.length } := by
  intro vs
  induction vs with
  | nil =>
    intro ws c hc hlen
    simp [pushList]
  | cons v rest ih =>
    intro ws c hc hlen
    simp only [List.length_cons] at hlen
    have hk : ws.length < c := by omega
    rw [pushList, push_fill_step v hk]
    have step2 := ih (ws ++ [v]) c hc
      (by simp only [List.length_append, List.length_cons, List.length_nil]; omega)
    simp only [List.length_append, List.length_cons, List.length_nil,
      List.append_assoc, List.singleton_append] at step2 ⊢
    have harith : ws.length + 1 + rest.length = ws.length + (rest.length + 1) := by
      omega
    rw [harith] at step2
    exact step2

theorem iterGo_no_wrap : ∀ (n t hd fuel c : Nat) (st : List α), st.length = c →
    t + n ≤ c → n < fuel →
    ∃ b1, iterGo fuel
        { head := hd, tail := t, storage := st,
          capacity := c, count := n }
      = some ((st.drop t).take n, b1) ∧ b1.count = 0 := by
  intro n
  induction n with
  | zero =>
    intro t hd fuel c st hst hle hfuel
    obtain ⟨fuel, rfl⟩ : ∃ f, fuel = f + 1 := ⟨fuel - 1, by omega⟩
    refine ⟨{ head := hd, tail := t, storage := st, capacity := c, count := 0 }, ?_, rfl⟩
    rw [iterGo, next_of_empty
      (b := { head := hd, tail := t, storage := st, capacity := c, count := 0 }) rfl]
    simp
  | succ n ih =>
    intro t hd fuel c st hst hle hfuel
    obtain ⟨fuel, rfl⟩ : ∃ f, fuel = f + 1 := ⟨fuel - 1, by omega⟩
    have hcap : c ≠ 0 := by omega
    have ht : t < st.length := by omega
    have ht2 : (t + 1) % c + n ≤ c := by
      by_cases he : t + 1 = c
      · rw [he, Nat.mod_self]
        omega
      · rw [Nat.mod_eq_of_lt (by omega)]
        omega
    obtain ⟨b1, hrec, hcnt⟩ := ih ((t + 1) % c) hd fuel c st hst ht2 (by omega)
    refine ⟨b1, ?_, hcnt⟩
    rw [iterGo, next_of_yield
      (b := { head := hd, tail := t, storage := st, capacity := c, count := n + 1 })
      (Nat.succ_ne_zero n) hcap]
    show (match iterGo fuel
        { head := hd, tail := (t + 1) % c, storage := st,
          capacity := c, count := n } with
      | none => none
      | some (ws, c2) => some (st.getD t default :: ws, c2))
      = some ((st.drop t).take (n + 1), b1)
    rw [hrec]
    have hval : st.getD t default :: (st.drop ((t + 1) % c)).take n
        = (st.drop t).take (n + 1) := by
      by_cases he : t + 1 = c
      · have hn : n = 0 := by omega
        subst hn
        simp only [List.getD_eq_getElem st default ht, List.take_zero,
          List.drop_eq_getElem_cons ht, List.take_succ_cons]
      · rw [Nat.mod_eq_of_lt (by omega), List.getD_eq_getElem st default ht,
          List.drop_eq_getElem_cons ht, List.take_succ_cons]
    show some (st.getD t default :: (st.drop ((t + 1) % c)).take n, b1)
        = some ((st.drop t).take (n + 1), b1)
    rw [hval]

/-- C1: the claim states that a push on a full buffer always advances
tail to (tail + 1) mod capacity.  The code ties the advance to the
comparison head greater than tail, so the advance is skipped whenever
head wraps to zero on an eviction: with capacity 2, after pushes
1, 2, 3 the buffer is full with tail 1, and pushing 4 (an eviction)
leaves tail at 1, while (tail + 1) mod capacity is 0. -/
theorem claim1_eviction_tail_not_advanced :
    pushList (init (α := Nat) 2) [1, 2, 3]
      = some { head := 1, tail := 1, storage := [3, 2], capacity := 2, count := 2 }
    ∧ full ({ head := 1, tail := 1, storage := [3, 2], capacity := 2, count := 2 } : BadRingBuffer Nat) = true
    ∧ push ({ head := 1, tail := 1, storage := [3, 2], capacity := 2, count := 2 } : BadRingBuffer Nat) 4
      = some { head := 0, tail := 1, storage := [3, 4], capacity := 2, count := 2 }
    ∧ (1 + 1) % 2 = 0 := by
  refine ⟨by decide, by decide, by decide, by decide⟩

/-- C2: the claim states that pushing c + k values and draining yields
the last c values oldest first.  With capacity 2 and pushes 1, 2, 3, 4
(k = 2) the drain yields [4, 3], not the claimed [3, 4]: the eviction
of the fourth push fails to advance tail (see C1), so the drain starts
at the newest element. -/
theorem claim2_overflow_drain_wrong_order :
    with_capacity (α := Nat) 1 1 2 = some (init 2)
    ∧ pushList (init (α := Nat) 2) [1, 2, 3, 4]
      = some { head := 0, tail := 1, storage := [3, 4], capacity := 2, count := 2 }
    ∧ drain ({ head := 0, tail := 1, storage := [3, 4], capacity := 2, count := 2 } : BadRingBuffer Nat)
      = some ([4, 3], { head := 0, tail := 0, storage := [3, 4], capacity := 2, count := 0 })
    ∧ ([4, 3] : List Nat) ≠ [3, 4] := by
  refine ⟨by decide, by decide, by decide, by decide⟩

/-- C3 counterexample: the claim states that construction fails
fatally whenever capacity is zero, yet with_capacity at capacity 0
returns a buffer (no panic): the source never tests the capacity. -/
theorem claim3_zero_capacity_constructs :
    with_capacity (α := Nat) 1 1 0 = some (init 0)
    ∧ empty (init (α := Nat) 0) = true
    ∧ full (init (α := Nat) 0) = true := by
  refine ⟨by decide, rfl, rfl⟩

/-- C3 amended: construction panics exactly when the layout
computation fails (the wrapped byte size exceeds isize MAX); a zero
capacity is accepted and yields an empty buffer of capacity 0, and
allocation failure is never tested, so it has no fatal branch. -/
theorem claim3_construction_failure_amended (sizeT capacity : Nat) :
    with_capacity (α := Nat) sizeT 1 capacity =
      if (capacity * sizeT) % usizeBound ≤ isizeMax then some (init capacity)
      else none := by
  by_cases hle : (capacity * sizeT) % usizeBound ≤ isizeMax
  · rw [if_pos hle]
    have hcond : layout_from_size_align ((capacity * sizeT) % usizeBound) 1 = true := by
      rw [layout_from_size_align]
      simp only [Bool.and_eq_true, decide_eq_true_eq]
      refine ⟨by decide, ?_⟩
      simpa using hle
    rw [with_capacity, if_pos hcond]
  · rw [if_neg hle]
    have hcond : ¬ layout_from_size_align ((capacity * sizeT) % usizeBound) 1 = true := by
      rw [layout_from_size_align]
      simp only [Bool.and_eq_true, decide_eq_true_eq, not_and]
      intro _
      simpa using hle
    rw [with_capacity, if_neg hcond]

/-- C4: the claim states that the byte stream read adapter pops
exactly min of the region length and the live count and never panics,
in particular with a zero length region over a non empty buffer.  The
code stores into the region before testing the index, so with a zero
length region and one live element it pops the element and then
panics on the out of bounds store. -/
theorem claim4_read_zero_len_panics :
    push (init (α := Nat) 1) 9
      = some { head := 0, tail := 0, storage := [9], capacity := 1, count := 1 }
    ∧ read ({ head := 0, tail := 0, storage := [9], capacity := 1, count := 1 } : BadRingBuffer Nat) 0 = none := by
  refine ⟨by decide, by decide⟩

/-- C5: pushing values v1..vn with n at most the capacity into a
freshly constructed buffer and then popping until absence yields
exactly v1..vn in order, after which a further pop yields nothing. -/
theorem claim5_fifo_no_overflow (c : Nat) (vs : List Nat) (b0 : BadRingBuffer Nat)
    (hc : 1 ≤ c) (hb0 : with_capacity 1 1 c = some b0) (hn : vs.length ≤ c) :
    ∃ b1 b2, pushList b0 vs = some b1 ∧ iterAll b1 = some (vs, b2) ∧
      next b2 = some (none, b2) := by
  obtain rfl := with_capacity_some hb0
  have hfill := pushList_fill vs [] c hc (by simpa using hn)
  simp only [List.length_nil, Nat.zero_mod, Nat.zero_add, List.nil_append,
    Nat.sub_zero] at hfill
  obtain ⟨b2, hpop, hcnt⟩ := iterGo_no_wrap vs.length 0 (vs.length % c)
    (vs.length + 1) c (vs ++ List.replicate (c - vs.length) default)
    (by simp; omega) (by omega) (by omega)
  refine ⟨_, b2, hfill, ?_, next_of_empty hcnt⟩
  show iterGo (vs.length + 1)
      { head := vs.length % c, tail := 0,
        storage := vs ++ List.replicate (c - vs.length) default,
        capacity := c, count := vs.length } = some (vs, b2)
  rw [hpop, List.drop_zero, List.take_left]

/-- C5 witness: capacity 3, pushing 7 then 8 and popping yields 7, 8
and then nothing. -/
theorem claim5_fifo_no_overflow_witness :
    ∃ b1 b2, pushList (init (α := Nat) 3) [7, 8] = some b1 ∧
      iterAll b1 = some ([7, 8], b2) ∧ next b2 = some (none, b2) :=
  claim5_fifo_no_overflow 3 [7, 8] (init 3) (by decide) (by decide) (by decide)

/-- C6: after any sequence of push, pop, clear and drain operations on
a buffer of capacity at least 1, the buffer reports empty exactly when
the independently tracked abstract live count is zero, reports full
exactly when that count equals the capacity, and the stored count
never exceeds the capacity. -/
theorem claim6_count_consistency (c : Nat) (b0 : BadRingBuffer Nat)
    (hc : 1 ≤ c) (hb0 : with_capacity 1 1 c = some b0) (ops : List (CoreOp Nat)) :
    ∃ b1, runCore b0 ops = some b1 ∧ b1.count ≤ c ∧
      (empty b1 = true ↔ absCount c ops = 0) ∧
      (full b1 = true ↔ absCount c ops = c) := by
  obtain rfl := with_capacity_some hb0
  obtain ⟨b1, hrun, hinv1, hcap1, hcnt1⟩ := runCore_spec ops (init c) (init_inv hc)
  have hcap : b1.capacity = c := hcap1.trans rfl
  have hcnt : b1.count = absCount c ops := hcnt1.trans rfl
  refine ⟨b1, hrun, ?_, ?_, ?_⟩
  · rw [← hcap]
    exact hinv1.2.2.1
  · simp [empty, hcnt]
  · simp [full, hcnt, hcap]

/-- C6 witness: capacity 2 under pushes 5, 6, 7 and one pop; the
abstract count is 1, so the buffer is neither empty nor full. -/
theorem claim6_count_consistency_witness :
    ∃ b1, runCore (init (α := Nat) 2)
        [CoreOp.push 5, CoreOp.push 6, CoreOp.push 7, CoreOp.pop] = some b1 ∧
      b1.count ≤ 2 ∧
      (empty b1 = true ↔
        absCount 2 [CoreOp.push 5, CoreOp.push 6, CoreOp.push 7, CoreOp.pop] = 0) ∧
      (full b1 = true ↔
        absCount 2 [CoreOp.push 5, CoreOp.push 6, CoreOp.push 7, CoreOp.pop] = 2) :=
  claim6_count_consistency 2 (init 2) (by decide) (by decide) _

/-- C7: on a freshly constructed buffer of capacity at least 1 and
after every surviving run of operations (pushes, pops, clear, drain
and the byte stream adapters), both head and tail stay strictly below
the capacity, even though the tail bump inside push carries no modulo. -/
theorem claim7_index_bounds (c : Nat) (b0 b1 : BadRingBuffer Nat) (ops : List (Op Nat))
    (hc : 1 ≤ c) (hb0 : with_capacity 1 1 c = some b0) (hrun : run b0 ops = some b1) :
    b0.head < c ∧ b0.tail < c ∧ b1.head < c ∧ b1.tail < c := by
  obtain rfl := with_capacity_some hb0
  obtain ⟨hinv1, hcap1⟩ := run_inv ops (init c) b1 (init_inv hc) hrun
  have hcap : b1.capacity = c := hcap1.trans rfl
  exact ⟨hc, hc, by rw [← hcap]; exact hinv1.1, by rw [← hcap]; exact hinv1.2.1⟩

/-- C7 witness: capacity 2, three pushes, a read of two bytes and a
bulk write of two more; head and tail remain below 2 throughout. -/
theorem claim7_index_bounds_witness :
    (init (α := Nat) 2).head < 2 ∧ (init (α := Nat) 2).tail < 2 ∧
      ({ head := 1, tail := 1, storage := [5, 4], capacity := 2, count := 2 } : BadRingBuffer Nat).head < 2 ∧
      ({ head := 1, tail := 1, storage := [5, 4], capacity := 2, count := 2 } : BadRingBuffer Nat).tail < 2 :=
  claim7_index_bounds 2 (init 2)
    { head := 1, tail := 1, storage := [5, 4], capacity := 2, count := 2 }
    [Op.push 1, Op.push 2, Op.push 3, Op.readInto 2, Op.writeFrom [4, 5]]
    (by decide) (by decide) (by decide)

/-- C8: drain returns exactly the sequence that repeatedly calling
next until absence would return, in the same order, and leaves the
buffer empty, a further pop yielding nothing. -/
theorem claim8_drain_equals_popping (b : BadRingBuffer Nat) (hc : 1 ≤ b.capacity) :
    ∃ vs bmid bfin, iterAll b = some (vs, bmid) ∧ drain b = some (vs, bfin) ∧
      empty bfin = true ∧ next bfin = some (none, bfin) := by
  obtain ⟨vs, bmid, hrec, hcnt, hcap, _, _, _⟩ :=
    iterGo_total (b.count + 1) b (by omega) (by omega)
  refine ⟨vs, bmid, clear bmid, hrec, ?_, rfl, next_of_empty rfl⟩
  rw [drain, iterAll, hrec]

/-- C8 witness: a full capacity 2 buffer drains to the same sequence
that repeated popping yields, and is empty afterwards. -/
theorem claim8_drain_equals_popping_witness :
    ∃ vs bmid bfin,
      iterAll ({ head := 1, tail := 1, storage := [3, 2], capacity := 2, count := 2 } : BadRingBuffer Nat) = some (vs, bmid) ∧
      drain ({ head := 1, tail := 1, storage := [3, 2], capacity := 2, count := 2 } : BadRingBuffer Nat) = some (vs, bfin) ∧
      empty bfin = true ∧ next bfin = some (none, bfin) :=
  claim8_drain_equals_popping
    { head := 1, tail := 1, storage := [3, 2], capacity := 2, count := 2 } (by decide)

/-- C9: on an empty buffer, next signals absence and leaves the whole
state (head, tail, count, capacity, storage) unchanged. -/
theorem claim9_pop_empty_no_mutation (b : BadRingBuffer Nat) (h : b.count = 0) :
    next b = some (none, b) :=
  next_of_empty h

/-- C9 witness: a fresh capacity 2 buffer yields nothing and is
untouched by next. -/
theorem claim9_pop_empty_no_mutation_witness :
    next (init (α := Nat) 2) = some (none, init 2) :=
  claim9_pop_empty_no_mutation (init 2) rfl

/-- C10: push and next never panic on a buffer of capacity at least 1;
with_capacity at capacity 0 succeeds and returns a buffer that reports
empty and full at once, and on that buffer every push panics at the
division (head + 1) % capacity with capacity 0. -/
theorem claim10_totality_and_zero_capacity :
    (∀ (b : BadRingBuffer Nat) (v : Nat), 1 ≤ b.capacity →
      (push b v).isSome = true ∧ (next b).isSome = true)
    ∧ (∃ z : BadRingBuffer Nat, with_capacity 1 1 0 = some z ∧ empty z = true ∧
        full z = true ∧ ∀ v : Nat, push z v = none) := by
  constructor
  · intro b v h
    constructor
    · rw [push_of_pos (by omega)]
      rfl
    · by_cases h0 : b.count = 0
      · rw [next_of_empty h0]
        rfl
      · rw [next_of_yield h0 (by omega)]
        rfl
  · exact ⟨init 0, by decide, rfl, rfl, fun v => rfl⟩

/-- C10 witness: on a capacity 1 buffer both push and next return. -/
theorem claim10_totality_and_zero_capacity_witness :
    (push (init (α := Nat) 1) 5).isSome = true ∧
      (next (init (α := Nat) 1)).isSome = true :=
  claim10_totality_and_zero_capacity.1 (init 1) 5 (by decide)

end BadRingBuffer
